import Mathlib

/-!
Shallow embedding of the diversity-sampling engine from
`diversity_sampling.py` (active-learning sampling strategies), together
with proofs of the specification claims about it.

Conventions of the embedding:
* Python floats are modelled as rationals (`ℚ`); all the arithmetic in the
  source is field arithmetic, so this is exact.
* An item row `[ID, TEXT, LABEL, SAMPLING_STRATEGY, CONFIDENCE]` is the
  structure `Item` below; `item[3]` is `strategy`, `item[4]` is `score`.
* Code that can raise (`ZeroDivisionError`, `IndexError`, `ValueError`)
  is modelled with `Option`: `none` is a crash.
* Calls to `random.shuffle` are modelled by explicit function parameters
  standing for the permutation the random source produced.
-/

/-- An item row `[ID, TEXT, LABEL, SAMPLING_STRATEGY, CONFIDENCE]` of the
source.  `strategy` is index 3, `score` is index 4. -/
structure Item where
  id : String
  text : String
  label : String
  strategy : String
  score : ℚ
deriving DecidableEq, Repr

/-- The id/text/label fields of an item: everything except the two fields a
sampling pass may write (`strategy`, index 3, and `score`, index 4). -/
def Item.base (it : Item) : String × String × String :=
  (it.id, it.text, it.label)

/-! ### Stable sorts

Python's `list.sort` is a stable sort; with `reverse=True` and
`key=lambda x: x[4]` it produces the unique descending-by-score order in
which equal-score items keep their relative input order.  A stable sort's
output is uniquely determined by that contract, so we embed it as an
insertion sort realizing the same contract. -/

/-- Descending-by-score order on items: `descRel x y` holds when `x` may
come before `y` in a list sorted by `reverse=True, key=lambda x: x[4]`. -/
def descRel (x y : Item) : Prop := y.score ≤ x.score

instance : DecidableRel descRel :=
  fun x y => inferInstanceAs (Decidable (y.score ≤ x.score))

instance : IsTotal Item descRel := ⟨fun a b => le_total b.score a.score⟩

instance : IsTrans Item descRel := ⟨fun _ _ _ h1 h2 => le_trans h2 h1⟩

/-- Stable descending sort by `score`: the embedding of
`list.sort(reverse=True, key=lambda x: x[4])`.  Insertion sort places a
new element in front of the first element whose score is not larger, so
of two equal-score items the one earlier in the input stays first —
exactly the stability contract of Python's sort. -/
def sortDescByScore (l : List Item) : List Item := l.insertionSort descRel

/-- Ascending numeric sort: the embedding of `list.sort()` on a list of
floats. -/
def sortAsc (l : List ℚ) : List ℚ := l.insertionSort (· ≤ ·)

/-! ### `get_rank` (lines 344-370)

```
index = 0
for ranked_number in rankings:
    if value < ranked_number:
        break
    index += 1
if(index >= len(rankings)):
    index = len(rankings)
elif(index > 0):
    diff = rankings[index] - rankings[index - 1]
    perc = value - rankings[index - 1]
    linear = perc / diff
    index = float(index - 1) + linear
absolute_ranking = index / len(rankings)
```

The final statement divides by `len(rankings)`, which raises
`ZeroDivisionError` on an empty list, and the interpolation divides by
`diff`; both divisions are guarded in the embedding and produce `none`
exactly when Python raises. -/

/-- The scan loop of `get_rank`: the number of leading entries consumed
before the first entry strictly greater than `value` (all of `rankings`
when no entry is greater). -/
def scanIndex (value : ℚ) : List ℚ → Nat
  | [] => 0
  | r :: rs => if value < r then 0 else scanIndex value rs + 1

/-- Embedding of `get_rank(value, rankings)`.  `none` models a Python
`ZeroDivisionError`. -/
def get_rank (value : ℚ) (rankings : List ℚ) : Option ℚ :=
  let index := scanIndex value rankings
  if rankings.length ≤ index then
    if rankings.length = 0 then none
    else some ((rankings.length : ℚ) / (rankings.length : ℚ))
  else if 0 < index then
    let diff := rankings.getD index 0 - rankings.getD (index - 1) 0
    let perc := value - rankings.getD (index - 1) 0
    if diff = 0 then none
    else some (((index : ℚ) - 1 + perc / diff) / (rankings.length : ℚ))
  else
    if rankings.length = 0 then none
    else some ((index : ℚ) / (rankings.length : ℚ))

/-- The specification's percentile-rank formula, written from the spec's
words: `idx` is the insertion position such that all entries before `idx`
are `≤ value`; rank `0` when `idx = 0`, rank `1` when `idx ≥ len`, and
otherwise the linear interpolation
`((idx - 1) + (value - r[idx-1]) / (r[idx] - r[idx-1])) / len`. -/
def rankVal (value : ℚ) (sorted_rankings : List ℚ) : ℚ :=
  let idx := sorted_rankings.countP (fun r => decide (r ≤ value))
  let n := sorted_rankings.length
  if idx = 0 then 0
  else if n ≤ idx then 1
  else ((idx : ℚ) - 1 +
        (value - sorted_rankings.getD (idx - 1) 0) /
          (sorted_rankings.getD idx 0 - sorted_rankings.getD (idx - 1) 0)) / n

/-! ### Properties of the sorts -/

theorem sortDescByScore_perm (l : List Item) : (sortDescByScore l).Perm l :=
  List.perm_insertionSort descRel l

theorem sortDescByScore_sorted (l : List Item) :
    List.Sorted descRel (sortDescByScore l) :=
  List.sorted_insertionSort descRel l

theorem filter_orderedInsert_descRel (a : Item) (c : ℚ) (l : List Item) :
    (List.orderedInsert descRel a l).filter (fun it => decide (it.score = c)) =
      if a.score = c then a :: l.filter (fun it => decide (it.score = c))
      else l.filter (fun it => decide (it.score = c)) := by
  induction l with
  | nil => by_cases h : a.score = c <;> simp [List.orderedInsert, h]
  | cons b bs ih =>
    by_cases hab : descRel a b
    · by_cases ha : a.score = c <;>
        simp [List.orderedInsert, hab, List.filter_cons, ha]
    · have hlt : a.score < b.score := lt_of_not_le hab
      by_cases ha : a.score = c
      · have hb : ¬ b.score = c := by
          intro hbc
          exact absurd (ha ▸ hbc ▸ hlt) (lt_irrefl _)
        simp [List.orderedInsert, hab, List.filter_cons, ha, hb, ih]
      · by_cases hb : b.score = c <;>
          simp [List.orderedInsert, hab, List.filter_cons, ha, hb, ih]

/-- Stability of the descending sort: for every score value `c`, the
equal-score items appear in the output in their input order. -/
theorem sortDescByScore_stable (c : ℚ) (l : List Item) :
    (sortDescByScore l).filter (fun it => decide (it.score = c)) =
      l.filter (fun it => decide (it.score = c)) := by
  induction l with
  | nil => rfl
  | cons a as ih =>
    by_cases ha : a.score = c <;>
      simp [sortDescByScore, List.insertionSort, filter_orderedInsert_descRel,
        ha, List.filter_cons] <;>
      simpa [sortDescByScore] using ih

theorem sortAsc_perm (l : List ℚ) : (sortAsc l).Perm l :=
  List.perm_insertionSort _ l

theorem sortAsc_sorted (l : List ℚ) : List.Sorted (· ≤ ·) (sortAsc l) :=
  List.sorted_insertionSort _ l

theorem sortAsc_length (l : List ℚ) : (sortAsc l).length = l.length :=
  (sortAsc_perm l).length_eq

theorem sortAsc_ne_nil {l : List ℚ} (h : l ≠ []) : sortAsc l ≠ [] := by
  intro hc
  exact h (List.Perm.eq_nil ((sortAsc_perm l).symm.trans (hc ▸ List.Perm.refl _)))

/-! ### Properties of the `get_rank` scan loop -/

theorem scanIndex_le_length (v : ℚ) (l : List ℚ) : scanIndex v l ≤ l.length := by
  induction l with
  | nil => simp [scanIndex]
  | cons r rs ih => by_cases h : v < r <;> simp [scanIndex, h] <;> omega

/-- The entry at the scan position (when it exists) is strictly greater
than the value: it is the entry that made the loop break. -/
theorem lt_getD_scanIndex (v : ℚ) (l : List ℚ) (h : scanIndex v l < l.length) :
    v < l.getD (scanIndex v l) 0 := by
  induction l with
  | nil => simp [scanIndex] at h
  | cons r rs ih =>
    by_cases hv : v < r
    · simpa [scanIndex, hv] using hv
    · simp only [scanIndex, if_neg hv, List.getD_cons_succ]
      simp only [scanIndex, if_neg hv, List.length_cons] at h
      exact ih (by omega)

/-- The entry just before the scan position (when the position is
positive) is at most the value: the loop did not break there. -/
theorem getD_scanIndex_sub_one_le (v : ℚ) (l : List ℚ) (h : 0 < scanIndex v l) :
    l.getD (scanIndex v l - 1) 0 ≤ v := by
  induction l with
  | nil => simp [scanIndex] at h
  | cons r rs ih =>
    by_cases hv : v < r
    · simp [scanIndex, hv] at h
    · simp only [scanIndex, if_neg hv, Nat.add_sub_cancel]
      cases hm : scanIndex v rs with
      | zero => simpa [hm] using not_lt.mp hv
      | succ m =>
        have := ih (by omega)
        simpa [hm] using (by simpa [hm] using this)

theorem scanIndex_mono (l : List ℚ) {v1 v2 : ℚ} (h : v1 ≤ v2) :
    scanIndex v1 l ≤ scanIndex v2 l := by
  induction l with
  | nil => simp [scanIndex]
  | cons r rs ih =>
    by_cases h2 : v2 < r
    · have h1 : v1 < r := lt_of_le_of_lt h h2
      simp [scanIndex, h1, h2]
    · by_cases h1 : v1 < r
      · simp [scanIndex, h1, h2]
      · simp only [scanIndex, if_neg h1, if_neg h2]
        omega

/-- On a sorted list the scan position is the insertion position of the
spec: the number of entries that are `≤ value`. -/
theorem scanIndex_eq_countP {l : List ℚ} (hs : List.Sorted (· ≤ ·) l) (v : ℚ) :
    scanIndex v l = l.countP (fun r => decide (r ≤ v)) := by
  induction l with
  | nil => simp [scanIndex]
  | cons r rs ih =>
    rcases List.sorted_cons.mp hs with ⟨hr, hrs⟩
    by_cases hv : v < r
    · have hz : rs.countP (fun x => decide (x ≤ v)) = 0 := by
        apply List.countP_eq_zero.mpr
        intro x hx
        simpa using not_le.mpr (lt_of_lt_of_le hv (hr x hx))
      simp [scanIndex, hv, List.countP_cons, hz, not_le.mpr hv]
    · simp [scanIndex, hv, List.countP_cons, ih hrs, not_lt.mp hv]

/-! ### Branch characterizations of `get_rank` -/

theorem get_rank_nil (v : ℚ) : get_rank v [] = none := by
  simp [get_rank, scanIndex]

theorem get_rank_of_scan_zero {v : ℚ} {l : List ℚ} (h : scanIndex v l = 0)
    (hl : l ≠ []) : get_rank v l = some 0 := by
  have hn : l.length ≠ 0 := fun hc => hl (List.length_eq_zero.mp hc)
  simp only [get_rank]
  rw [if_neg (by omega), if_neg (by omega), if_neg hn]
  simp [h]

theorem get_rank_of_scan_len {v : ℚ} {l : List ℚ}
    (h : l.length ≤ scanIndex v l) (hl : l ≠ []) : get_rank v l = some 1 := by
  have hn : l.length ≠ 0 := fun hc => hl (List.length_eq_zero.mp hc)
  have hq : ((l.length : ℚ)) ≠ 0 := by exact_mod_cast hn
  simp only [get_rank]
  rw [if_pos h, if_neg hn, div_self hq]

/-- In the interpolation branch the denominator
`rankings[index] - rankings[index-1]` is strictly positive (for any list,
sorted or not), so the branch produces `some` of the interpolated value. -/
theorem get_rank_of_scan_mid {v : ℚ} {l : List ℚ}
    (h1 : 0 < scanIndex v l) (h2 : scanIndex v l < l.length) :
    0 < l.getD (scanIndex v l) 0 - l.getD (scanIndex v l - 1) 0 ∧
    get_rank v l = some (((scanIndex v l : ℚ) - 1 +
        (v - l.getD (scanIndex v l - 1) 0) /
          (l.getD (scanIndex v l) 0 - l.getD (scanIndex v l - 1) 0)) /
        (l.length : ℚ)) := by
  have ha : l.getD (scanIndex v l - 1) 0 ≤ v := getD_scanIndex_sub_one_le v l h1
  have hb : v < l.getD (scanIndex v l) 0 := lt_getD_scanIndex v l h2
  have hd : 0 < l.getD (scanIndex v l) 0 - l.getD (scanIndex v l - 1) 0 := by
    linarith
  refine ⟨hd, ?_⟩
  simp only [get_rank]
  rw [if_neg (Nat.not_le.mpr h2), if_pos h1, if_neg (ne_of_gt hd)]

theorem get_rank_some_ne_nil {v : ℚ} {l : List ℚ} {q : ℚ}
    (h : get_rank v l = some q) : l ≠ [] := by
  intro hc
  rw [hc, get_rank_nil] at h
  exact Option.noConfusion h

/-- Totality of `get_rank` on nonempty input: no division by zero occurs. -/
theorem get_rank_isSome {l : List ℚ} (hl : l ≠ []) (v : ℚ) :
    (get_rank v l).isSome := by
  rcases Nat.lt_or_ge (scanIndex v l) l.length with h2 | h2
  · rcases Nat.eq_zero_or_pos (scanIndex v l) with h1 | h1
    · rw [get_rank_of_scan_zero h1 hl]; rfl
    · rw [(get_rank_of_scan_mid h1 h2).2]; rfl
  · rw [get_rank_of_scan_len h2 hl]; rfl

/-- Every rank `get_rank` produces lies in `[0, 1]`. -/
theorem get_rank_bounds {v : ℚ} {l : List ℚ} {q : ℚ}
    (h : get_rank v l = some q) : 0 ≤ q ∧ q ≤ 1 := by
  have hl : l ≠ [] := get_rank_some_ne_nil h
  have hn : 0 < l.length := List.length_pos.mpr hl
  have hnq : (0 : ℚ) < (l.length : ℚ) := by exact_mod_cast hn
  rcases Nat.lt_or_ge (scanIndex v l) l.length with h2 | h2
  · rcases Nat.eq_zero_or_pos (scanIndex v l) with h1 | h1
    · rw [get_rank_of_scan_zero h1 hl] at h
      cases h
      norm_num
    · obtain ⟨hd, he⟩ := get_rank_of_scan_mid h1 h2
      rw [he] at h
      cases h
      have ha : l.getD (scanIndex v l - 1) 0 ≤ v := getD_scanIndex_sub_one_le v l h1
      have hb : v < l.getD (scanIndex v l) 0 := lt_getD_scanIndex v l h2
      have hf0 : 0 ≤ (v - l.getD (scanIndex v l - 1) 0) /
          (l.getD (scanIndex v l) 0 - l.getD (scanIndex v l - 1) 0) :=
        div_nonneg (by linarith) (le_of_lt hd)
      have hf1 : (v - l.getD (scanIndex v l - 1) 0) /
          (l.getD (scanIndex v l) 0 - l.getD (scanIndex v l - 1) 0) < 1 :=
        (div_lt_one hd).mpr (by linarith)
      have hi1 : (1 : ℚ) ≤ (scanIndex v l : ℚ) := by exact_mod_cast h1
      have hin : (scanIndex v l : ℚ) ≤ (l.length : ℚ) := by
        exact_mod_cast le_of_lt h2
      constructor
      · apply div_nonneg _ (le_of_lt hnq)
        linarith
      · rw [div_le_one hnq]
        linarith
  · rw [get_rank_of_scan_len h2 hl] at h
    cases h
    norm_num

/-- In the interpolation branch the rank lies in
`[(idx-1)/len, idx/len)`. -/
theorem get_rank_mid_bounds {v : ℚ} {l : List ℚ} {q : ℚ}
    (h1 : 0 < scanIndex v l) (h2 : scanIndex v l < l.length)
    (h : get_rank v l = some q) :
    ((scanIndex v l : ℚ) - 1) / (l.length : ℚ) ≤ q ∧
    q < (scanIndex v l : ℚ) / (l.length : ℚ) := by
  have hl : l ≠ [] := get_rank_some_ne_nil h
  have hn : 0 < l.length := List.length_pos.mpr hl
  have hnq : (0 : ℚ) < (l.length : ℚ) := by exact_mod_cast hn
  obtain ⟨hd, he⟩ := get_rank_of_scan_mid h1 h2
  rw [he] at h
  cases h
  have ha : l.getD (scanIndex v l - 1) 0 ≤ v := getD_scanIndex_sub_one_le v l h1
  have hb : v < l.getD (scanIndex v l) 0 := lt_getD_scanIndex v l h2
  have hf0 : 0 ≤ (v - l.getD (scanIndex v l - 1) 0) /
      (l.getD (scanIndex v l) 0 - l.getD (scanIndex v l - 1) 0) :=
    div_nonneg (by linarith) (le_of_lt hd)
  have hf1 : (v - l.getD (scanIndex v l - 1) 0) /
      (l.getD (scanIndex v l) 0 - l.getD (scanIndex v l - 1) 0) < 1 :=
    (div_lt_one hd).mpr (by linarith)
  constructor
  · exact (div_le_div_iff_of_pos_right hnq).mpr (by linarith)
  · exact (div_lt_div_iff_of_pos_right hnq).mpr (by linarith)

/-- `get_rank` is monotone non-decreasing in its value argument (for any
rankings list): a larger value never receives a smaller rank. -/
theorem get_rank_mono_aux {l : List ℚ} {v1 v2 q1 q2 : ℚ} (h : v1 ≤ v2)
    (h1 : get_rank v1 l = some q1) (h2 : get_rank v2 l = some q2) :
    q1 ≤ q2 := by
  have hl : l ≠ [] := get_rank_some_ne_nil h1
  have hn : 0 < l.length := List.length_pos.mpr hl
  have hnq : (0 : ℚ) < (l.length : ℚ) := by exact_mod_cast hn
  have hii : scanIndex v1 l ≤ scanIndex v2 l := scanIndex_mono l h
  rcases Nat.lt_or_ge (scanIndex v2 l) l.length with hb2 | hb2
  · rcases Nat.eq_zero_or_pos (scanIndex v2 l) with hz2 | hp2
    · -- both scans are zero: both ranks are 0
      have hz1 : scanIndex v1 l = 0 := by omega
      rw [get_rank_of_scan_zero hz1 hl] at h1
      rw [get_rank_of_scan_zero hz2 hl] at h2
      cases h1
      cases h2
      exact le_refl _
    · rcases Nat.eq_zero_or_pos (scanIndex v1 l) with hz1 | hp1
      · -- rank of v1 is 0, rank of v2 is nonnegative
        rw [get_rank_of_scan_zero hz1 hl] at h1
        cases h1
        exact (get_rank_bounds h2).1
      · have hb1 : scanIndex v1 l < l.length := by omega
        rcases Nat.lt_or_ge (scanIndex v1 l) (scanIndex v2 l) with hlt | hge
        · -- strictly larger scan position: compare through idx/len
          have u1 := (get_rank_mid_bounds hp1 hb1 h1).2
          have u2 := (get_rank_mid_bounds hp2 hb2 h2).1
          refine le_of_lt (lt_of_lt_of_le u1 (le_trans ?_ u2))
          apply (div_le_div_iff_of_pos_right hnq).mpr
          have : (scanIndex v1 l : ℚ) + 1 ≤ (scanIndex v2 l : ℚ) := by
            exact_mod_cast hlt
          linarith
        · -- equal scan positions: same interpolation interval
          have heq : scanIndex v1 l = scanIndex v2 l := by omega
          obtain ⟨hd1, he1⟩ := get_rank_of_scan_mid hp1 hb1
          obtain ⟨hd2, he2⟩ := get_rank_of_scan_mid hp2 hb2
          rw [he1] at h1
          rw [he2] at h2
          cases h1
          cases h2
          rw [heq]
          apply (div_le_div_iff_of_pos_right hnq).mpr
          have hfrac : (v1 - l.getD (scanIndex v2 l - 1) 0) /
              (l.getD (scanIndex v2 l) 0 - l.getD (scanIndex v2 l - 1) 0) ≤
              (v2 - l.getD (scanIndex v2 l - 1) 0) /
              (l.getD (scanIndex v2 l) 0 - l.getD (scanIndex v2 l - 1) 0) :=
            (div_le_div_iff_of_pos_right hd2).mpr (by linarith)
          linarith
  · -- v2 is past the whole distribution: its rank is the maximum 1
    rw [get_rank_of_scan_len hb2 hl] at h2
    cases h2
    exact (get_rank_bounds h1).2

/-- On a sorted nonempty list, `get_rank` computes exactly the
specification's percentile-rank formula. -/
theorem get_rank_eq_rankVal {l : List ℚ} (hs : List.Sorted (· ≤ ·) l)
    (hl : l ≠ []) (v : ℚ) : get_rank v l = some (rankVal v l) := by
  have hcount : l.countP (fun r => decide (r ≤ v)) = scanIndex v l :=
    (scanIndex_eq_countP hs v).symm
  rw [rankVal]
  simp only [hcount]
  rcases Nat.eq_zero_or_pos (scanIndex v l) with h0 | hp
  · rw [if_pos h0, get_rank_of_scan_zero h0 hl]
  · rw [if_neg (by omega)]
    rcases Nat.lt_or_ge (scanIndex v l) l.length with hlt | hge
    · rw [if_neg (by omega)]
      exact (get_rank_of_scan_mid hp hlt).2
    · rw [if_pos hge]
      exact get_rank_of_scan_len hge hl

/-! ### `get_random_items` (lines 328-341)

```
shuffle(unlabeled_data)
random_items = []
for item in unlabeled_data:
    textid = item[0]
    if textid in already_labeled:
        continue
    item[3] = "random_remaining"
    random_items.append(item)
    if len(random_items) >= number:
        break
return random_items
```
-/

/-- The selection loop of `get_random_items`; `found` is the number of
items appended so far (the `break` fires after an append makes the length
reach `number`). -/
def randomItemsLoop (already : String → Bool) (number : Nat) :
    List Item → Nat → List Item
  | [], _ => []
  | it :: rest, found =>
    if already it.id then randomItemsLoop already number rest found
    else
      let it' := { it with strategy := "random_remaining" }
      if number ≤ found + 1 then [it']
      else it' :: randomItemsLoop already number rest (found + 1)

/-- Embedding of `get_random_items(unlabeled_data, number)`.  `shuffled`
is the unlabeled pool after the in-place `shuffle`; `already` is the
`already_labeled` lookup. -/
def get_random_items (already : String → Bool) (shuffled : List Item)
    (number : Nat) : List Item :=
  randomItemsLoop already number shuffled 0

/-! ### The Cluster collaborator

Modelled from the spec: `pytorch_clusters.Cluster` is imported by the
source but absent from `src/`.  Per the spec, a cluster accumulates added
items (`add_to_cluster`) into a centroid that is the feature-wise sum of
the members' feature vectors, and `cosine_similary(item)` is the cosine
similarity between the item's vector and the centroid; feature vectors
are a function of the item's text only.  We therefore model a cluster by
the list of its members' texts, and take the similarity function
`cosSim : List String → String → ℚ` (similarity of an item's text to the
profile built from a list of member texts) as an abstract parameter: all
theorems below hold for every such function. -/

/-! ### `get_representative_samples` (lines 408-445)

```
if limit > 0:
    shuffle(training_data)
    training_data = training_data[:limit]
    shuffle(unlabeled_data)
    unlabeled_data = unlabeled_data[:limit]
training_cluster = Cluster()
for item in training_data:
    training_cluster.add_to_cluster(item)
unlabeled_cluster = Cluster()
for item in unlabeled_data:
    unlabeled_cluster.add_to_cluster(item)
for item in unlabeled_data:
    training_score = training_cluster.cosine_similary(item)
    unlabeled_score = unlabeled_cluster.cosine_similary(item)
    representativeness = unlabeled_score - training_score
    item[3] = "representative"
    item[4] = representativeness
unlabeled_data.sort(reverse=True, key=lambda x: x[4])
return unlabeled_data[:number:]
```

The items are mutated in place and shared with the caller.  The embedding
returns a triple `(result, training_after, unlabeled_after)` where the
last two components are the caller's lists as the call leaves them: when
`limit > 0` slicing copies the list, so the caller's unlabeled list is
the shuffled list with the scored prefix (the sort acts on the local
copy); when `limit ≤ 0` no copy is made and the caller's list is the
sorted scored list itself.  `shT`/`shU` stand for the two `shuffle`
calls. -/

/-- The working set a shuffle-and-truncate pass leaves: the shuffled list
cut to `limit` items when `limit > 0`, the untouched list otherwise. -/
def repTruncated (sh : List Item → List Item) (data : List Item)
    (limit : Int) : List Item :=
  if 0 < limit then (sh data).take limit.toNat else data

/-- The scoring loop of `get_representative_samples` over the (possibly
truncated) target set `uLocal` against the reference set `tLocal`: each
item gets `strategy = "representative"` and
`score = unlabeled_score - training_score`, the similarity to the target
profile minus the similarity to the reference profile. -/
def repScored (cosSim : List String → String → ℚ)
    (tLocal uLocal : List Item) : List Item :=
  uLocal.map (fun it =>
    { it with
        strategy := "representative",
        score := cosSim (uLocal.map Item.text) it.text
          - cosSim (tLocal.map Item.text) it.text })

/-- Embedding of
`get_representative_samples(training_data, unlabeled_data, number, limit)`. -/
def get_representative_samples (cosSim : List String → String → ℚ)
    (shT shU : List Item → List Item)
    (training_data unlabeled_data : List Item) (number : Nat) (limit : Int) :
    List Item × List Item × List Item :=
  let t1 := if 0 < limit then shT training_data else training_data
  let u1 := if 0 < limit then shU unlabeled_data else unlabeled_data
  let scored := repScored cosSim (repTruncated shT training_data limit)
    (repTruncated shU unlabeled_data limit)
  let sorted := sortDescByScore scored
  let uAfter := if 0 < limit then scored ++ u1.drop limit.toNat else sorted
  (sorted.take number, t1, uAfter)

/-! ### `get_adaptive_representative_samples` (lines 448-457)

```
samples = []
for i in range(0, number):
    representative_item = get_representative_samples(training_data, unlabeled_data, 1, limit)[0]
    samples.append(representative_item)
    unlabeled_data.remove(representative_item)
return samples
```
-/

/-- Embedding of `list.remove(a)`: removes the first element equal to
`a`, raising `ValueError` (`none`) when no element equals `a`. -/
def pyRemove (l : List Item) (a : Item) : Option (List Item) :=
  if a ∈ l then some (l.erase a) else none

/-- The iteration of `get_adaptive_representative_samples`: `i` is the
iteration counter (each iteration draws fresh shuffle randomness
`shT i` / `shU i`), `k` the remaining iterations.  `[0]` on an empty
selection and `remove` of an absent item are crashes (`none`). -/
def adaptiveLoop (cosSim : List String → String → ℚ)
    (shT shU : Nat → List Item → List Item) (limit : Int) :
    Nat → Nat → List Item → List Item →
    Option (List Item × List Item × List Item)
  | _, 0, training, unlabeled => some ([], training, unlabeled)
  | i, Nat.succ k, training, unlabeled =>
    match (get_representative_samples cosSim (shT i) (shU i)
        training unlabeled 1 limit).1 with
    | [] => none
    | item :: _ =>
      match pyRemove (get_representative_samples cosSim (shT i) (shU i)
          training unlabeled 1 limit).2.2 item with
      | none => none
      | some u' =>
        match adaptiveLoop cosSim shT shU limit (i + 1) k
            (get_representative_samples cosSim (shT i) (shU i)
              training unlabeled 1 limit).2.1 u' with
        | none => none
        | some (samples, tF, uF) => some (item :: samples, tF, uF)

/-- Embedding of
`get_adaptive_representative_samples(training_data, unlabeled_data, number, limit)`:
returns the selected samples together with the final states of the two
caller-owned lists. -/
def get_adaptive_representative_samples (cosSim : List String → String → ℚ)
    (shT shU : Nat → List Item → List Item)
    (training_data unlabeled_data : List Item) (number : Nat) (limit : Int) :
    Option (List Item × List Item × List Item) :=
  adaptiveLoop cosSim shT shU limit 0 number training_data unlabeled_data

/-! ### `get_model_outliers` (lines 460-546)

The model is a black box `String → List ℚ` mapping an item's text to the
vector of per-neuron logits (`make_feature_vector` + forward pass; the
feature vector is a function of the text only).

Step 1 builds `validation_rankings`, a matrix with one row per neuron and
one column per validation item, preallocated as rows of
`[0.0] * len(validation_data)` at the first item and written column by
column (`validation_rankings[n][v] = output`); indexing past the row list
is an `IndexError` (`none`).  Step 2 sorts every row ascending.  Step 3
scores each working item `1 - sum(ranks)/len(neuron_outputs)` (a
`ZeroDivisionError` when the model returns no outputs), tags it
`"logit_rank_outlier"`, and the result is the top `number` of the
descending sort. -/

/-- Python slicing `l[:limit]` for an arbitrary integer bound (negative
bounds count from the end). -/
def pySlice (limit : Int) (l : List Item) : List Item :=
  if 0 ≤ limit then l.take limit.toNat
  else l.take (l.length - (-limit).toNat)

/-- The `validation_rankings` preallocation: one row of
`[0.0] * count` per neuron output. -/
def initRankings (neuron_outputs : List ℚ) (count : Nat) : List (List ℚ) :=
  neuron_outputs.map (fun _ => List.replicate count (0 : ℚ))

/-- The inner write loop `for output in neuron_outputs:
validation_rankings[n][v] = output`: writes the `v`-th column, one row
per output; `none` when there are more outputs than rows or the column
is out of range (`IndexError`). -/
def writeColumn : List (List ℚ) → Nat → List ℚ → Option (List (List ℚ))
  | rankings, _, [] => some rankings
  | [], _, _ :: _ => none
  | row :: rows, v, o :: os =>
    if v < row.length then
      match writeColumn rows v os with
      | none => none
      | some rest => some (row.set v o :: rest)
    else none

/-- The Step-1 loop over the validation items: initializes the matrix at
the first item whose outputs are seen while the matrix is still empty,
then writes each item's outputs as column `v`. -/
def buildLoop (model : String → List ℚ) (count : Nat) :
    List Item → List (List ℚ) → Nat → Option (List (List ℚ))
  | [], rankings, _ => some rankings
  | item :: rest, rankings, v =>
    let neuron_outputs := model item.text
    let rankings1 := if rankings.isEmpty then initRankings neuron_outputs count
      else rankings
    match writeColumn rankings1 v neuron_outputs with
    | none => none
    | some r2 => buildLoop model count rest r2 (v + 1)

/-- Step 1 of `get_model_outliers`: the unsorted per-neuron activation
matrix over the validation data. -/
def buildValidationRankings (model : String → List ℚ)
    (validation_data : List Item) : Option (List (List ℚ)) :=
  buildLoop model validation_data.length validation_data [] 0

/-- The per-item rank loop `for output in neuron_outputs:
rank = get_rank(output, validation_rankings[n]); n += 1`: `none` on an
`IndexError` (more outputs than neuron rows) or a `get_rank` crash. -/
def computeRanks : List ℚ → List (List ℚ) → Option (List ℚ)
  | [], _ => some []
  | _ :: _, [] => none
  | o :: os, r :: rs =>
    match get_rank o r, computeRanks os rs with
    | some rk, some rest => some (rk :: rest)
    | _, _ => none

/-- The Step-3 scoring loop of `get_model_outliers`: skips
already-labeled items, scores the rest
`1 - sum(ranks)/len(neuron_outputs)` and tags them
`"logit_rank_outlier"`. -/
def scoreOutliers (model : String → List ℚ) (already : String → Bool)
    (validation_rankings : List (List ℚ)) : List Item → Option (List Item)
  | [] => some []
  | item :: rest =>
    if already item.id then scoreOutliers model already validation_rankings rest
    else
      match computeRanks (model item.text) validation_rankings with
      | none => none
      | some ranks =>
        if (model item.text).length = 0 then none
        else
          match scoreOutliers model already validation_rankings rest with
          | none => none
          | some out =>
            some ({ item with
                      strategy := "logit_rank_outlier",
                      score := 1 - ranks.sum / ((model item.text).length : ℚ) }
                  :: out)

/-- The working set of `get_model_outliers`: everything when
`limit == -1`, otherwise the shuffled pool sliced to `limit`. -/
def outlierWorking (shU : List Item → List Item)
    (unlabeled_data : List Item) (limit : Int) : List Item :=
  if limit = -1 then unlabeled_data else pySlice limit (shU unlabeled_data)

/-- Embedding of
`get_model_outliers(model, unlabeled_data, validation_data, number, limit)`. -/
def get_model_outliers (model : String → List ℚ) (already : String → Bool)
    (shU : List Item → List Item)
    (unlabeled_data validation_data : List Item) (number : Nat) (limit : Int) :
    Option (List Item) :=
  match buildValidationRankings model validation_data with
  | none => none
  | some r0 =>
    match scoreOutliers model already (r0.map sortAsc)
        (outlierWorking shU unlabeled_data limit) with
    | none => none
    | some outliers => some ((sortDescByScore outliers).take number)

/-! ### Specification-side description of the outlier score

These definitions restate, from the spec's words, what the score of an
item should be: per neuron, the sorted list of that neuron's activations
over the validation data, and `1 -` the average of the spec's percentile
rank of the item's activations in those lists. -/

/-- Neuron `n`'s sorted validation rankings, described declaratively. -/
def specRanking (model : String → List ℚ) (validation_data : List Item)
    (n : Nat) : List ℚ :=
  sortAsc (validation_data.map (fun it => (model it.text).getD n 0))

/-- All `D` neuron rankings. -/
def specRankings (model : String → List ℚ) (validation_data : List Item)
    (D : Nat) : List (List ℚ) :=
  (List.range D).map (specRanking model validation_data)

/-- The spec's outlier score of a text: `1 -` the average over the `D`
neurons of the percentile rank of the corresponding activation. -/
def specOutlierScore (model : String → List ℚ) (validation_data : List Item)
    (D : Nat) (t : String) : ℚ :=
  1 - (List.zipWith rankVal (model t)
        (specRankings model validation_data D)).sum / (D : ℚ)

/-! ### The convergence loop of `get_cluster_samples` (lines 374-405)

```
if limit > 0:
    shuffle(data)
    data = data[:limit]
cosine_clusters = CosineClusters(num_clusters)
cosine_clusters.add_random_training_items(data)
for i in range(0, max_epochs):
    added = cosine_clusters.add_items_to_best_cluster(data)
    if added == 0:
        break
centroids = cosine_clusters.get_centroids()
outliers = cosine_clusters.get_outliers()
randoms = cosine_clusters.get_randoms()
return centroids + outliers + randoms
```

Modelled from the spec: `CosineClusters` lives in `pytorch_clusters`,
absent from `src/`.  Per the spec, `add_items_to_best_cluster` performs
one epoch reassigning every item to its most-similar cluster and returns
the number of items whose cluster membership changed; we model it as an
abstract state-transition function `step : σ → σ × ℕ` on an abstract
cluster-set state `σ`, and the seeding and the three extraction getters
as abstract functions. -/

/-- The epoch loop `for i in range(0, max_epochs): added = step; if
added == 0: break`: returns the final state and the list of moved counts
of the epochs actually executed. -/
def clusterEpochLoop {σ : Type} (step : σ → σ × Nat) :
    σ → Nat → σ × List Nat
  | s, 0 => (s, [])
  | s, Nat.succ k =>
    let s' := (step s).1
    let added := (step s).2
    if added = 0 then (s', [added])
    else
      let rest := clusterEpochLoop step s' k
      (rest.1, added :: rest.2)

/-- The cluster state reached after `i` unbounded epochs. -/
def clusterState {σ : Type} (step : σ → σ × Nat) (s : σ) : Nat → σ
  | 0 => s
  | Nat.succ k => clusterState step (step s).1 k

/-- The moved count an `i`-th epoch would report in an unbounded run. -/
def epochMoved {σ : Type} (step : σ → σ × Nat) (s : σ) (i : Nat) : Nat :=
  (step (clusterState step s i)).2

/-- Embedding of `get_cluster_samples(data, num_clusters, max_epochs,
limit)` with the spec-modelled `CosineClusters` collaborator abstract:
`seed` covers `CosineClusters(num_clusters)` plus
`add_random_training_items`, `step` is
`add_items_to_best_cluster(data)` on the truncated working set, and the
three getters extract the result. -/
def get_cluster_samples {σ : Type} (sh : List Item → List Item)
    (seed : List Item → σ) (step : σ → List Item → σ × Nat)
    (get_centroids get_outliers get_randoms : σ → List Item)
    (data : List Item) (max_epochs : Nat) (limit : Int) : List Item :=
  let data1 := if 0 < limit then (sh data).take limit.toNat else data
  let s0 := seed data1
  let sF := (clusterEpochLoop (fun s => step s data1) s0 max_epochs).1
  get_centroids sF ++ get_outliers sF ++ get_randoms sF

/-! ### Lemmas about `get_random_items` -/

theorem randomItemsLoop_not_labeled (already : String → Bool) (number : Nat) :
    ∀ (items : List Item) (found : Nat),
      ∀ it ∈ randomItemsLoop already number items found,
        already it.id = false := by
  intro items
  induction items with
  | nil => intro found it h; simp [randomItemsLoop] at h
  | cons a rest ih =>
    intro found it h
    simp only [randomItemsLoop] at h
    by_cases ha : already a.id = true
    · rw [if_pos ha] at h
      exact ih found it h
    · have ha' : already a.id = false := by simpa using ha
      rw [if_neg ha] at h
      by_cases hn : number ≤ found + 1
      · rw [if_pos hn] at h
        have he : it = { a with strategy := "random_remaining" } := by
          simpa using h
        rw [he]
        exact ha'
      · rw [if_neg hn] at h
        rcases List.mem_cons.mp h with h1 | h2
        · rw [h1]
          exact ha'
        · exact ih (found + 1) it h2

/-! ### Lemmas about `get_representative_samples` -/

theorem repScored_base (cosSim : List String → String → ℚ)
    (tLocal uLocal : List Item) :
    (repScored cosSim tLocal uLocal).map Item.base = uLocal.map Item.base := by
  unfold repScored
  rw [List.map_map]
  rfl

theorem rep_result_eq (cosSim : List String → String → ℚ)
    (shT shU : List Item → List Item) (tr ul : List Item)
    (number : Nat) (limit : Int) :
    (get_representative_samples cosSim shT shU tr ul number limit).1 =
      (sortDescByScore (repScored cosSim (repTruncated shT tr limit)
        (repTruncated shU ul limit))).take number := rfl

theorem rep_training_eq (cosSim : List String → String → ℚ)
    (shT shU : List Item → List Item) (tr ul : List Item)
    (number : Nat) (limit : Int) :
    (get_representative_samples cosSim shT shU tr ul number limit).2.1 =
      if 0 < limit then shT tr else tr := rfl

theorem rep_uAfter_pos (cosSim : List String → String → ℚ)
    (shT shU : List Item → List Item) (tr ul : List Item)
    (number : Nat) {limit : Int} (h : 0 < limit) :
    (get_representative_samples cosSim shT shU tr ul number limit).2.2 =
      repScored cosSim (repTruncated shT tr limit) (repTruncated shU ul limit)
        ++ (shU ul).drop limit.toNat := by
  simp [get_representative_samples, h]

theorem rep_uAfter_nonpos (cosSim : List String → String → ℚ)
    (shT shU : List Item → List Item) (tr ul : List Item)
    (number : Nat) {limit : Int} (h : ¬ 0 < limit) :
    (get_representative_samples cosSim shT shU tr ul number limit).2.2 =
      sortDescByScore (repScored cosSim (repTruncated shT tr limit)
        (repTruncated shU ul limit)) := by
  simp [get_representative_samples, h]

/-- Every returned item is (an alias of) an element of the caller's
unlabeled list after the call. -/
theorem rep_mem_result_uAfter {cosSim : List String → String → ℚ}
    {shT shU : List Item → List Item} {tr ul : List Item}
    {number : Nat} {limit : Int} {it : Item}
    (h : it ∈ (get_representative_samples cosSim shT shU tr ul number limit).1) :
    it ∈ (get_representative_samples cosSim shT shU tr ul number limit).2.2 := by
  rw [rep_result_eq] at h
  have hsorted := List.mem_of_mem_take h
  have hscored : it ∈ repScored cosSim (repTruncated shT tr limit)
      (repTruncated shU ul limit) :=
    (sortDescByScore_perm _).mem_iff.mp hsorted
  by_cases h0 : 0 < limit
  · rw [rep_uAfter_pos cosSim shT shU tr ul number h0]
    exact List.mem_append_left _ hscored
  · rw [rep_uAfter_nonpos cosSim shT shU tr ul number h0]
    exact hsorted

/-- The caller's unlabeled list after the call holds the same
id/text/label triples as before (fields 3 and 4 apart, nothing is
gained or lost). -/
theorem rep_uAfter_base_perm {cosSim : List String → String → ℚ}
    {shT shU : List Item → List Item} {tr ul : List Item}
    {number : Nat} {limit : Int} (hU : ∀ l, (shU l).Perm l) :
    (((get_representative_samples cosSim shT shU tr ul number limit).2.2).map
      Item.base).Perm (ul.map Item.base) := by
  by_cases h0 : 0 < limit
  · rw [rep_uAfter_pos cosSim shT shU tr ul number h0, List.map_append,
      repScored_base, repTruncated, if_pos h0, ← List.map_append,
      List.take_append_drop]
    exact (hU ul).map Item.base
  · have hru : repTruncated shU ul limit = ul := by rw [repTruncated, if_neg h0]
    rw [rep_uAfter_nonpos cosSim shT shU tr ul number h0, hru]
    have h1 := (sortDescByScore_perm (repScored cosSim
      (repTruncated shT tr limit) ul)).map Item.base
    rw [repScored_base] at h1
    exact h1

theorem rep_uAfter_id_perm {cosSim : List String → String → ℚ}
    {shT shU : List Item → List Item} {tr ul : List Item}
    {number : Nat} {limit : Int} (hU : ∀ l, (shU l).Perm l) :
    (((get_representative_samples cosSim shT shU tr ul number limit).2.2).map
      Item.id).Perm (ul.map Item.id) := by
  have h := (@rep_uAfter_base_perm cosSim shT shU tr ul number limit
    hU).map Prod.fst
  rw [List.map_map, List.map_map] at h
  exact h

/-- With `number = 1` and a nonempty pool, the selection is nonempty
(so `[0]` in the adaptive loop does not raise). -/
theorem rep_result_ne_nil {cosSim : List String → String → ℚ}
    {shT shU : List Item → List Item} {tr ul : List Item} {limit : Int}
    (hU : ∀ l, (shU l).Perm l) (hne : ul ≠ []) :
    (get_representative_samples cosSim shT shU tr ul 1 limit).1 ≠ [] := by
  rw [rep_result_eq]
  have huLocal : repTruncated shU ul limit ≠ [] := by
    rw [repTruncated]
    by_cases h0 : 0 < limit
    · rw [if_pos h0]
      have hsh : shU ul ≠ [] := by
        intro hc
        have hperm := hU ul
        rw [hc] at hperm
        exact hne hperm.symm.eq_nil
      cases hs : shU ul with
      | nil => exact absurd hs hsh
      | cons x xs =>
        cases hm : limit.toNat with
        | zero => omega
        | succ m => simp [List.take]
    · rw [if_neg h0]
      exact hne
  have hscored : repScored cosSim (repTruncated shT tr limit)
      (repTruncated shU ul limit) ≠ [] := by
    rw [repScored]
    simpa using huLocal
  have hsorted : sortDescByScore (repScored cosSim (repTruncated shT tr limit)
      (repTruncated shU ul limit)) ≠ [] := by
    intro hc
    have hp := sortDescByScore_perm (repScored cosSim
      (repTruncated shT tr limit) (repTruncated shU ul limit))
    rw [hc] at hp
    exact hscored hp.symm.eq_nil
  cases hs : sortDescByScore (repScored cosSim (repTruncated shT tr limit)
      (repTruncated shU ul limit)) with
  | nil => exact absurd hs hsorted
  | cons x xs => simp [List.take]

/-- One adaptive iteration's facts about the single-shot call: the
selection is a nonempty list headed by an item that lives in the
caller's unlabeled list after the call, whose ids are a permutation of
the ids before the call. -/
theorem rep_step {cosSim : List String → String → ℚ}
    {shT shU : List Item → List Item} {tr ul : List Item} {limit : Int}
    (hU : ∀ l, (shU l).Perm l) (hne : ul ≠ []) :
    ∃ item tail,
      (get_representative_samples cosSim shT shU tr ul 1 limit).1 =
        item :: tail ∧
      item ∈ (get_representative_samples cosSim shT shU tr ul 1 limit).2.2 ∧
      ((((get_representative_samples cosSim shT shU tr ul 1 limit).2.2).map
        Item.id)).Perm (ul.map Item.id) := by
  have hres : (get_representative_samples cosSim shT shU tr ul 1 limit).1 ≠ [] :=
    rep_result_ne_nil hU hne
  cases hc : (get_representative_samples cosSim shT shU tr ul 1 limit).1 with
  | nil => exact absurd hc hres
  | cons a t =>
    refine ⟨a, t, rfl, ?_, rep_uAfter_id_perm hU⟩
    exact rep_mem_result_uAfter (by rw [hc]; exact List.mem_cons_self _ _)

/-- Soundness of the adaptive sampling loop: with distinct ids and
enough items, `k` iterations succeed, return `k` items with pairwise
distinct ids, and shrink the pool by exactly one item per iteration. -/
theorem adaptiveLoop_sound (cosSim : List String → String → ℚ)
    (shT shU : Nat → List Item → List Item) (limit : Int)
    (hU : ∀ i l, (shU i l).Perm l) :
    ∀ (k i : Nat) (training unlabeled : List Item),
      (unlabeled.map Item.id).Nodup → k ≤ unlabeled.length →
      ∃ samples tF uF,
        adaptiveLoop cosSim shT shU limit i k training unlabeled
          = some (samples, tF, uF) ∧
        samples.length = k ∧
        uF.length = unlabeled.length - k ∧
        ((samples.map Item.id) ++ (uF.map Item.id)).Perm
          (unlabeled.map Item.id) ∧
        (samples.map Item.id).Nodup := by
  intro k
  induction k with
  | zero =>
    intro i training unlabeled hnd hk
    exact ⟨[], training, unlabeled, rfl, rfl, by omega, by simp, by simp⟩
  | succ k ih =>
    intro i training unlabeled hnd hk
    have hne : unlabeled ≠ [] := by
      intro hc
      rw [hc] at hk
      simp at hk
    obtain ⟨item, tail, hcons, hmem, hids⟩ :=
      @rep_step cosSim (shT i) (shU i) training unlabeled limit (hU i) hne
    simp only [adaptiveLoop]
    generalize hg : get_representative_samples cosSim (shT i) (shU i)
      training unlabeled 1 limit = r at hcons hmem hids ⊢
    rw [hcons]
    simp only [pyRemove, if_pos hmem]
    have hperm3 : ((r.2.2).map Item.id).Perm
        (item.id :: ((r.2.2).erase item).map Item.id) :=
      (List.perm_cons_erase hmem).map Item.id
    have hUL : (unlabeled.map Item.id).Perm
        (item.id :: ((r.2.2).erase item).map Item.id) :=
      hids.symm.trans hperm3
    have hndu : (item.id :: ((r.2.2).erase item).map Item.id).Nodup :=
      hUL.nodup hnd
    have hnotin : item.id ∉ ((r.2.2).erase item).map Item.id :=
      (List.nodup_cons.mp hndu).1
    have hndu' : (((r.2.2).erase item).map Item.id).Nodup :=
      (List.nodup_cons.mp hndu).2
    have hlen : ((r.2.2).erase item).length = unlabeled.length - 1 := by
      have := hUL.length_eq
      simp only [List.length_map, List.length_cons] at this
      omega
    have hk' : k ≤ ((r.2.2).erase item).length := by omega
    obtain ⟨samples, tF, uF, heq, hslen, huflen, hperm, hsnd⟩ :=
      ih (i + 1) r.2.1 ((r.2.2).erase item) hndu' hk'
    rw [heq]
    refine ⟨item :: samples, tF, uF, rfl, by simp [hslen], by omega, ?_, ?_⟩
    · have h1 : ((item :: samples).map Item.id ++ uF.map Item.id)
          = item.id :: (samples.map Item.id ++ uF.map Item.id) := by simp
      rw [h1]
      exact (List.Perm.cons _ hperm).trans hUL.symm
    · rw [List.map_cons, List.nodup_cons]
      refine ⟨fun hin => hnotin ?_, hsnd⟩
      have hsub : samples.map Item.id ⊆ ((r.2.2).erase item).map Item.id := by
        intro x hx
        exact hperm.subset (List.mem_append_left _ hx)
      exact hsub hin

/-! ### Lemmas about the outlier-scoring pipeline -/

theorem computeRanks_length_bounds :
    ∀ (outputs : List ℚ) (vr : List (List ℚ)) (ranks : List ℚ),
      computeRanks outputs vr = some ranks →
      ranks.length = outputs.length ∧ ∀ x ∈ ranks, 0 ≤ x ∧ x ≤ 1 := by
  intro outputs
  induction outputs with
  | nil =>
    intro vr ranks h
    simp only [computeRanks] at h
    have he := Option.some.inj h
    rw [← he]
    simp
  | cons o os ih =>
    intro vr ranks h
    cases vr with
    | nil => simp [computeRanks] at h
    | cons r rs =>
      simp only [computeRanks] at h
      cases hg : get_rank o r with
      | none => rw [hg] at h; simp at h
      | some q =>
        cases hc : computeRanks os rs with
        | none => rw [hg, hc] at h; simp at h
        | some rest =>
          rw [hg, hc] at h
          have he := Option.some.inj h
          obtain ⟨hlen, hbd⟩ := ih rs rest hc
          rw [← he]
          constructor
          · simp [hlen]
          · intro x hx
            rcases List.mem_cons.mp hx with h1 | h2
            · rw [h1]
              exact get_rank_bounds hg
            · exact hbd x h2

theorem computeRanks_eq_zipWith :
    ∀ (outputs : List ℚ) (vr : List (List ℚ)),
      (∀ r ∈ vr, List.Sorted (· ≤ ·) r ∧ r ≠ []) →
      outputs.length ≤ vr.length →
      computeRanks outputs vr = some (List.zipWith rankVal outputs vr) := by
  intro outputs
  induction outputs with
  | nil => intro vr _ _; simp [computeRanks]
  | cons o os ih =>
    intro vr hvr hlen
    cases vr with
    | nil => simp at hlen
    | cons r rs =>
      obtain ⟨hs, hn⟩ := hvr r (List.mem_cons_self _ _)
      have h1 : get_rank o r = some (rankVal o r) := get_rank_eq_rankVal hs hn o
      have h2 : computeRanks os rs = some (List.zipWith rankVal os rs) := by
        refine ih rs (fun x hx => hvr x (List.mem_cons_of_mem _ hx)) ?_
        simpa using Nat.le_of_succ_le_succ (by simpa using hlen)
      simp only [computeRanks, h1, h2]
      rfl

theorem sum_bounds_of_forall {l : List ℚ} (h : ∀ x ∈ l, 0 ≤ x ∧ x ≤ 1) :
    0 ≤ l.sum ∧ l.sum ≤ (l.length : ℚ) := by
  induction l with
  | nil => simp
  | cons a as ih =>
    obtain ⟨h1, h2⟩ := h a (List.mem_cons_self _ _)
    obtain ⟨h3, h4⟩ := ih (fun x hx => h x (List.mem_cons_of_mem _ hx))
    constructor
    · simp only [List.sum_cons]
      linarith
    · simp only [List.sum_cons, List.length_cons]
      push_cast
      linarith

/-- Every item the outlier scoring loop emits is not already labeled, is
tagged `"logit_rank_outlier"`, and has a score in `[0, 1]`. -/
theorem scoreOutliers_mem (model : String → List ℚ) (already : String → Bool)
    (vr : List (List ℚ)) :
    ∀ (items out : List Item), scoreOutliers model already vr items = some out →
      ∀ it ∈ out, already it.id = false ∧ it.strategy = "logit_rank_outlier" ∧
        0 ≤ it.score ∧ it.score ≤ 1 := by
  intro items
  induction items with
  | nil =>
    intro out h it hit
    simp only [scoreOutliers] at h
    rw [← Option.some.inj h] at hit
    simp at hit
  | cons a rest ih =>
    intro out h it hit
    simp only [scoreOutliers] at h
    by_cases ha : already a.id = true
    · rw [if_pos ha] at h
      exact ih out h it hit
    · rw [if_neg ha] at h
      split at h
      · exact absurd h (by simp)
      · rename_i ranks hc
        split at h
        · exact absurd h (by simp)
        · rename_i hz
          split at h
          · exact absurd h (by simp)
          · rename_i out' hrec
            rw [← Option.some.inj h] at hit
            rcases List.mem_cons.mp hit with h1 | h2
            · obtain ⟨hlen, hbd⟩ :=
                computeRanks_length_bounds (model a.text) vr ranks hc
              obtain ⟨hs0, hs1⟩ := sum_bounds_of_forall hbd
              have hlq : (0 : ℚ) < ((model a.text).length : ℚ) := by
                exact_mod_cast Nat.pos_of_ne_zero hz
              have hsl : ranks.sum ≤ ((model a.text).length : ℚ) := by
                rw [← hlen]
                exact hs1
              have hd1 : ranks.sum / ((model a.text).length : ℚ) ≤ 1 :=
                (div_le_one hlq).mpr hsl
              have hd0 : 0 ≤ ranks.sum / ((model a.text).length : ℚ) :=
                div_nonneg hs0 (le_of_lt hlq)
              rw [h1]
              refine ⟨by simpa using ha, rfl, ?_, ?_⟩
              · show (0 : ℚ) ≤ 1 - ranks.sum / ((model a.text).length : ℚ)
                linarith
              · show (1 : ℚ) - ranks.sum / ((model a.text).length : ℚ) ≤ 1
                linarith
            · exact ih out' hrec it h2

/-- Refinement of the outlier scoring loop: under a fixed model output
dimension `D > 0` and well-formed neuron rankings, the loop succeeds and
produces exactly the already-labeled-filtered candidates, each tagged and
scored `1 -` the average spec percentile rank. -/
theorem scoreOutliers_eq_filterMap (model : String → List ℚ)
    (already : String → Bool) (vr : List (List ℚ)) (D : Nat)
    (Hdim : ∀ s, (model s).length = D) (hD : 0 < D) (hvr : vr.length = D)
    (hrows : ∀ r ∈ vr, List.Sorted (· ≤ ·) r ∧ r ≠ []) :
    ∀ items : List Item,
      scoreOutliers model already vr items =
        some ((items.filter (fun it => !(already it.id))).map (fun it =>
          { it with
              strategy := "logit_rank_outlier",
              score := 1 - (List.zipWith rankVal (model it.text) vr).sum
                / (D : ℚ) })) := by
  intro items
  induction items with
  | nil => rfl
  | cons a rest ih =>
    simp only [scoreOutliers]
    by_cases ha : already a.id = true
    · rw [if_pos ha, ih]
      simp [List.filter_cons, ha]
    · have ha' : already a.id = false := by simpa using ha
      have hc : computeRanks (model a.text) vr
          = some (List.zipWith rankVal (model a.text) vr) :=
        computeRanks_eq_zipWith (model a.text) vr hrows (by rw [Hdim, hvr])
      have hz : ¬ (model a.text).length = 0 := by
        rw [Hdim]
        omega
      rw [if_neg ha]
      split
      · rename_i hc0
        rw [hc] at hc0
        exact absurd hc0 (by simp)
      · rename_i ranks hc0
        rw [hc] at hc0
        rw [← Option.some.inj hc0]
        rw [if_neg hz]
        split
        · rename_i hrec
          rw [ih] at hrec
          exact absurd hrec (by simp)
        · rename_i out' hrec
          rw [ih] at hrec
          rw [← Option.some.inj hrec]
          rw [List.filter_cons]
          simp only [ha', Bool.not_false, if_pos]
          rw [List.map_cons]
          congr 2
          rw [Hdim]

/-! ### The shape of the validation-rankings matrix -/

/-- The rankings matrix after the columns of `processed` have been
written: row `n` holds neuron `n`'s activation for each processed item
followed by `padding` still-unwritten zeros. -/
def colRows (model : String → List ℚ) (D : Nat) (processed : List Item)
    (padding : Nat) : List (List ℚ) :=
  (List.range D).map (fun n =>
    processed.map (fun it => (model it.text).getD n 0) ++
      List.replicate padding (0 : ℚ))

theorem colRows_length (model : String → List ℚ) (D : Nat)
    (processed : List Item) (padding : Nat) :
    (colRows model D processed padding).length = D := by
  simp [colRows]

theorem colRows_isEmpty_false (model : String → List ℚ) {D : Nat}
    (hD : 0 < D) (processed : List Item) (padding : Nat) :
    (colRows model D processed padding).isEmpty = false := by
  rw [List.isEmpty_eq_false_iff_exists_mem]
  cases hc : colRows model D processed padding with
  | nil =>
    have := colRows_length model D processed padding
    rw [hc] at this
    simp at this
    omega
  | cons r rs => exact ⟨r, List.mem_cons_self _ _⟩

theorem colRows_row_length (model : String → List ℚ) (D : Nat)
    (processed : List Item) (padding : Nat) :
    ∀ r ∈ colRows model D processed padding,
      r.length = processed.length + padding := by
  intro r hr
  simp only [colRows, List.mem_map] at hr
  obtain ⟨n, _, rfl⟩ := hr
  simp

theorem set_append_replicate (a : List ℚ) (m : Nat) (o : ℚ) :
    (a ++ List.replicate (m + 1) (0 : ℚ)).set a.length o =
      (a ++ [o]) ++ List.replicate m (0 : ℚ) := by
  induction a with
  | nil => simp [List.replicate_succ]
  | cons x xs ih => simp [ih]

theorem writeColumn_sound :
    ∀ (outputs : List ℚ) (rows : List (List ℚ)) (v : Nat),
      outputs.length = rows.length → (∀ r ∈ rows, v < r.length) →
      writeColumn rows v outputs =
        some (List.zipWith (fun r o => r.set v o) rows outputs) := by
  intro outputs
  induction outputs with
  | nil =>
    intro rows v hlen _
    cases rows with
    | nil => rfl
    | cons r rs => simp at hlen
  | cons o os ih =>
    intro rows v hlen hin
    cases rows with
    | nil => simp at hlen
    | cons r rs =>
      have hv : v < r.length := hin r (List.mem_cons_self _ _)
      simp only [writeColumn, if_pos hv]
      rw [ih rs v (by simpa using hlen)
        (fun x hx => hin x (List.mem_cons_of_mem _ hx))]
      rfl

theorem zipWith_range_map {α β γ : Type} (f : α → β → γ) :
    ∀ (D : Nat) (g : Nat → α) (outputs : List β) (d : β),
      outputs.length = D →
      List.zipWith f ((List.range D).map g) outputs =
        (List.range D).map (fun n => f (g n) (outputs.getD n d)) := by
  intro D
  induction D with
  | zero =>
    intro g outputs d h
    rw [List.length_eq_zero.mp h]
    rfl
  | succ D ih =>
    intro g outputs d h
    cases outputs with
    | nil => simp at h
    | cons o os =>
      rw [List.range_succ_eq_map]
      simp only [List.map_cons, List.map_map, List.zipWith_cons_cons]
      rw [ih (g ∘ Nat.succ) os d (by simpa using h)]
      simp [Function.comp]

theorem colRows_step (model : String → List ℚ) (D : Nat)
    (Hdim : ∀ s, (model s).length = D)
    (processed : List Item) (item : Item) (m : Nat) :
    List.zipWith (fun r o => r.set processed.length o)
        (colRows model D processed (m + 1)) (model item.text) =
      colRows model D (processed ++ [item]) m := by
  rw [colRows, zipWith_range_map _ D _ (model item.text) 0 (Hdim item.text),
    colRows]
  refine List.map_congr_left (fun n _ => ?_)
  have hlen : (processed.map
      (fun it => (model it.text).getD n 0)).length = processed.length :=
    List.length_map _ _
  rw [← hlen, set_append_replicate, List.map_append]
  rfl

/-- Invariant of the Step-1 loop: once the matrix holds the columns of
the processed items (padded with zeros for the rest), processing the
remaining items succeeds and fills the remaining columns. -/
theorem buildLoop_inv (model : String → List ℚ) (D : Nat)
    (Hdim : ∀ s, (model s).length = D) (hD : 0 < D) :
    ∀ (remaining processed : List Item),
      buildLoop model (processed.length + remaining.length) remaining
          (colRows model D processed remaining.length) processed.length
        = some (colRows model D (processed ++ remaining) 0) := by
  intro remaining
  induction remaining with
  | nil =>
    intro processed
    simp only [buildLoop]
    simp
  | cons item rest ih =>
    intro processed
    simp only [buildLoop]
    have hnie : ¬ ((colRows model D processed
        (item :: rest).length).isEmpty = true) := by
      rw [colRows_isEmpty_false model hD]
      simp
    rw [if_neg hnie]
    rw [writeColumn_sound (model item.text) _ processed.length
      (by rw [Hdim, colRows_length])
      (fun r hr => by rw [colRows_row_length model D processed _ r hr]; simp)]
    have hstep := colRows_step model D Hdim processed item rest.length
    simp only [List.length_cons] at hstep ⊢
    rw [hstep]
    show buildLoop model (processed.length + (rest.length + 1)) rest
        (colRows model D (processed ++ [item]) rest.length)
        (processed.length + 1)
      = some (colRows model D (processed ++ item :: rest) 0)
    have hcount : processed.length + (rest.length + 1)
        = (processed ++ [item]).length + rest.length := by
      simp
      omega
    have hpos : processed.length + 1 = (processed ++ [item]).length := by
      simp
    rw [hcount, hpos, ih (processed ++ [item])]
    rw [List.append_assoc, List.singleton_append]

/-- Step 1 of `get_model_outliers` computes, for each neuron, the column
of its activations over the validation items. -/
theorem buildValidationRankings_eq (model : String → List ℚ) (D : Nat)
    (Hdim : ∀ s, (model s).length = D) (hD : 0 < D) :
    ∀ (validation : List Item), validation ≠ [] →
      buildValidationRankings model validation
        = some (colRows model D validation 0) := by
  intro validation hne
  cases validation with
  | nil => exact absurd rfl hne
  | cons it rest =>
    rw [buildValidationRankings]
    simp only [buildLoop, List.isEmpty_nil, if_true]
    have hinit : initRankings (model it.text) (it :: rest).length
        = colRows model D [] (it :: rest).length := by
      have e1 : initRankings (model it.text) (it :: rest).length
          = List.replicate D (List.replicate (it :: rest).length (0 : ℚ)) := by
        rw [initRankings, List.map_const', Hdim]
      have e2 : colRows model D [] (it :: rest).length
          = List.replicate D (List.replicate (it :: rest).length (0 : ℚ)) := by
        rw [colRows]
        simp only [List.map_nil, List.nil_append]
        rw [List.map_const', List.length_range]
      rw [e1, e2]
    rw [hinit]
    have hinv := buildLoop_inv model D Hdim hD (it :: rest) []
    have hnie : ¬ ((colRows model D []
        (it :: rest).length).isEmpty = true) := by
      rw [colRows_isEmpty_false model hD]
      simp
    simp only [buildLoop, List.length_nil, List.nil_append, Nat.zero_add,
      if_neg hnie] at hinv
    exact hinv

theorem specRankings_length (model : String → List ℚ)
    (validation : List Item) (D : Nat) :
    (specRankings model validation D).length = D := by
  simp [specRankings]

theorem specRankings_rows (model : String → List ℚ)
    {validation : List Item} (hne : validation ≠ []) (D : Nat) :
    ∀ r ∈ specRankings model validation D,
      List.Sorted (· ≤ ·) r ∧ r ≠ [] := by
  intro r hr
  simp only [specRankings, List.mem_map] at hr
  obtain ⟨n, _, rfl⟩ := hr
  refine ⟨sortAsc_sorted _, sortAsc_ne_nil ?_⟩
  intro hc
  exact hne (List.map_eq_nil_iff.mp hc)

/-- Step 2: sorting each built row yields exactly the spec's per-neuron
sorted validation rankings. -/
theorem validationRankings_sorted_spec (model : String → List ℚ) (D : Nat)
    (validation : List Item) :
    (colRows model D validation 0).map sortAsc =
      specRankings model validation D := by
  rw [colRows, specRankings, List.map_map]
  refine List.map_congr_left (fun n _ => ?_)
  simp [specRanking, Function.comp]

/-- Full refinement of `get_model_outliers` against the spec's
description: with a fixed model dimension `D > 0` and a nonempty
validation set, the call succeeds and returns the top `number` of the
stable descending sort of the not-already-labeled working items, each
tagged `"logit_rank_outlier"` and scored by the spec's
`1 - average percentile rank` formula. -/
theorem get_model_outliers_eq (model : String → List ℚ)
    (already : String → Bool) (shU : List Item → List Item)
    (unlabeled validation : List Item) (number : Nat) (limit : Int)
    (D : Nat) (Hdim : ∀ s, (model s).length = D) (hD : 0 < D)
    (hne : validation ≠ []) :
    get_model_outliers model already shU unlabeled validation number limit
      = some ((sortDescByScore (((outlierWorking shU unlabeled limit).filter
          (fun it => !(already it.id))).map (fun it =>
            { it with
                strategy := "logit_rank_outlier",
                score := specOutlierScore model validation D it.text }))).take
          number) := by
  simp only [get_model_outliers]
  rw [buildValidationRankings_eq model D Hdim hD validation hne]
  show (match scoreOutliers model already
      ((colRows model D validation 0).map sortAsc)
      (outlierWorking shU unlabeled limit) with
    | none => none
    | some outliers => some ((sortDescByScore outliers).take number)) = _
  rw [validationRankings_sorted_spec model D validation]
  rw [scoreOutliers_eq_filterMap model already
    (specRankings model validation D) D Hdim hD
    (specRankings_length model validation D)
    (specRankings_rows model hne D)
    (outlierWorking shU unlabeled limit)]
  rfl

/-! ### Lemmas about the clustering convergence loop -/

theorem clusterEpochLoop_sound {σ : Type} (step : σ → σ × Nat) :
    ∀ (max_epochs : Nat) (s : σ),
      ((clusterEpochLoop step s max_epochs).2).length ≤ max_epochs ∧
      (∀ i, i < ((clusterEpochLoop step s max_epochs).2).length →
        ((clusterEpochLoop step s max_epochs).2).get? i
          = some (epochMoved step s i)) ∧
      (∀ i, i + 1 < ((clusterEpochLoop step s max_epochs).2).length →
        epochMoved step s i ≠ 0) ∧
      (((clusterEpochLoop step s max_epochs).2).length < max_epochs →
        0 < ((clusterEpochLoop step s max_epochs).2).length ∧
        epochMoved step s
          (((clusterEpochLoop step s max_epochs).2).length - 1) = 0) ∧
      (clusterEpochLoop step s max_epochs).1
        = clusterState step s ((clusterEpochLoop step s max_epochs).2).length := by
  intro max_epochs
  induction max_epochs with
  | zero =>
    intro s
    refine ⟨le_refl _, ?_, ?_, ?_, rfl⟩
    · intro i h
      simp [clusterEpochLoop] at h
    · intro i h
      simp [clusterEpochLoop] at h
    · intro h
      simp [clusterEpochLoop] at h
  | succ n ih =>
    intro s
    by_cases h0 : (step s).2 = 0
    · simp only [clusterEpochLoop, if_pos h0]
      refine ⟨by simp, ?_, ?_, ?_, rfl⟩
      · intro i h
        simp only [List.length_singleton] at h
        have hi : i = 0 := by omega
        subst hi
        rfl
      · intro i h
        simp only [List.length_singleton] at h
        omega
      · intro _
        exact ⟨by simp, by simpa [epochMoved, clusterState] using h0⟩
    · simp only [clusterEpochLoop, if_neg h0]
      obtain ⟨ih1, ih2, ih3, ih4, ih5⟩ := ih (step s).1
      refine ⟨by simpa using Nat.succ_le_succ ih1, ?_, ?_, ?_, ?_⟩
      · intro i h
        cases i with
        | zero => rfl
        | succ j =>
          simp only [List.length_cons] at h
          exact ih2 j (by omega)
      · intro i h
        cases i with
        | zero => exact fun hc => h0 (by simpa [epochMoved, clusterState] using hc)
        | succ j =>
          simp only [List.length_cons] at h
          exact ih3 j (by omega)
      · intro h
        simp only [List.length_cons] at h ⊢
        have hlt : ((clusterEpochLoop step (step s).1 n).2).length < n := by
          omega
        obtain ⟨hp, hz⟩ := ih4 hlt
        refine ⟨by omega, ?_⟩
        obtain ⟨m, hm⟩ : ∃ m, ((clusterEpochLoop step (step s).1 n).2).length
            = m + 1 := ⟨_, (Nat.succ_pred_eq_of_pos hp).symm⟩
        rw [hm]
        rw [hm] at hz
        simpa [epochMoved, clusterState] using hz
      · simp only [List.length_cons]
        exact ih5

/-! ## The claims -/

/-- C1: for every rankings list sorted ascending and every value `v`,
`get_rank v rankings` follows the spec's percentile-rank semantics: with
`idx` the insertion position such that all entries before `idx` are
`≤ v`, the result is `0` when `idx = 0`, `1` when `idx ≥ len(rankings)`,
and otherwise
`((idx - 1) + (v - rankings[idx-1]) / (rankings[idx] - rankings[idx-1])) / len(rankings)`
(this is `rankVal`, written from the spec's words); in particular for
`rankings = [1.0, 3.0, 5.0]`: `get_rank 0 = 0`, `get_rank 6 = 1`, and
`get_rank 4 = 0.5`. -/
theorem C1_get_rank_percentile_spec :
    (∀ (v : ℚ) (rankings : List ℚ), List.Sorted (· ≤ ·) rankings →
      rankings ≠ [] → get_rank v rankings = some (rankVal v rankings)) ∧
    get_rank 0 [1, 3, 5] = some 0 ∧
    get_rank 6 [1, 3, 5] = some 1 ∧
    get_rank 4 [1, 3, 5] = some (1 / 2) := by
  refine ⟨fun v r hs hn => get_rank_eq_rankVal hs hn v, ?_, ?_, ?_⟩ <;>
    norm_num [get_rank, scanIndex]

/-- C1 witness: the general part of C1 evaluated at `v = 4`,
`rankings = [1, 3, 5]`. -/
theorem C1_witness :
    get_rank 4 [1, 3, 5] = some (rankVal 4 [1, 3, 5]) :=
  C1_get_rank_percentile_spec.1 4 [1, 3, 5] (by decide) (by decide)

/-- C6 counterexample: the claim says `get_rank` is total and never
divides by zero for every rankings list, but on the empty list the final
normalization `index / len(rankings)` divides by zero (a Python
`ZeroDivisionError`, `none` in this embedding). -/
theorem C6_counterexample : get_rank 0 [] = none := get_rank_nil 0

/-- C6 (amended): for every nonempty rankings list (sorted or not) and
every value, `get_rank` returns a value (no division by zero), and
whenever the interpolation branch executes
(`0 < index < len(rankings)`), the neighbours satisfy
`rankings[index-1] ≤ v < rankings[index]`, so the denominator
`rankings[index] - rankings[index-1]` is strictly positive — in
particular the equal-neighbours degenerate case never arises in that
branch.  On the empty list the final normalization divides by zero. -/
theorem C6_no_division_by_zero :
    ∀ (v : ℚ) (rankings : List ℚ), rankings ≠ [] →
      (get_rank v rankings).isSome = true ∧
      (0 < scanIndex v rankings → scanIndex v rankings < rankings.length →
        rankings.getD (scanIndex v rankings - 1) 0 ≤ v ∧
        v < rankings.getD (scanIndex v rankings) 0 ∧
        0 < rankings.getD (scanIndex v rankings) 0 -
          rankings.getD (scanIndex v rankings - 1) 0) := by
  intro v r hr
  refine ⟨get_rank_isSome hr v, fun h1 h2 => ?_⟩
  have ha := getD_scanIndex_sub_one_le v r h1
  have hb := lt_getD_scanIndex v r h2
  exact ⟨ha, hb, by linarith⟩

/-- C6 witness: the amended claim evaluated at `v = 2`,
`rankings = [1, 3, 5]` (interpolation branch, denominator `3 - 1`). -/
theorem C6_witness :
    (get_rank 2 [1, 3, 5]).isSome = true ∧
    ([1, 3, 5] : List ℚ).getD (scanIndex 2 [1, 3, 5] - 1) 0 ≤ 2 ∧
    (2 : ℚ) < ([1, 3, 5] : List ℚ).getD (scanIndex 2 [1, 3, 5]) 0 ∧
    (0 : ℚ) < ([1, 3, 5] : List ℚ).getD (scanIndex 2 [1, 3, 5]) 0 -
      ([1, 3, 5] : List ℚ).getD (scanIndex 2 [1, 3, 5] - 1) 0 := by
  obtain ⟨h1, h2⟩ := C6_no_division_by_zero 2 [1, 3, 5] (by decide)
  obtain ⟨ha, hb, hd⟩ := h2 (by decide) (by decide)
  exact ⟨h1, ha, hb, hd⟩

/-- C10: for every fixed rankings list sorted ascending, `get_rank` is
monotone non-decreasing in its value argument: a larger activation never
receives a smaller percentile rank. -/
theorem C10_get_rank_monotone :
    ∀ (rankings : List ℚ), List.Sorted (· ≤ ·) rankings →
      ∀ (v1 v2 q1 q2 : ℚ), v1 ≤ v2 →
        get_rank v1 rankings = some q1 → get_rank v2 rankings = some q2 →
        q1 ≤ q2 :=
  fun _ _ _ _ _ _ h h1 h2 => get_rank_mono_aux h h1 h2

/-- C10 witness: monotonicity evaluated on `[1, 3, 5]` at `2 ≤ 4`
(ranks `1/6 ≤ 1/2`). -/
theorem C10_witness :
    get_rank 2 [1, 3, 5] = some (1 / 6) ∧
    get_rank 4 [1, 3, 5] = some (1 / 2) ∧ (1 / 6 : ℚ) ≤ 1 / 2 := by
  have e1 : get_rank 2 [1, 3, 5] = some (1 / 6) := by
    norm_num [get_rank, scanIndex]
  have e2 : get_rank 4 [1, 3, 5] = some (1 / 2) := by
    norm_num [get_rank, scanIndex]
  exact ⟨e1, e2, C10_get_rank_monotone [1, 3, 5] (by decide) 2 4 (1 / 6)
    (1 / 2) (by norm_num) e1 e2⟩

/-- C8: the clustering convergence loop of `get_cluster_samples` (with
the spec-modelled `add_items_to_best_cluster` as an abstract `step`)
executes at most `max_epochs` epochs, its observed moved counts agree
with the unbounded run, every epoch that is followed by another had a
nonzero moved count, and when it stops before `max_epochs` the last
epoch's moved count was `0`: it stops at whichever of the two conditions
comes first. -/
theorem C8_cluster_loop_termination {σ : Type} (step : σ → σ × Nat)
    (s : σ) (max_epochs : Nat) :
    ((clusterEpochLoop step s max_epochs).2).length ≤ max_epochs ∧
    (∀ i, i < ((clusterEpochLoop step s max_epochs).2).length →
      ((clusterEpochLoop step s max_epochs).2).get? i
        = some (epochMoved step s i)) ∧
    (∀ i, i + 1 < ((clusterEpochLoop step s max_epochs).2).length →
      epochMoved step s i ≠ 0) ∧
    (((clusterEpochLoop step s max_epochs).2).length < max_epochs →
      0 < ((clusterEpochLoop step s max_epochs).2).length ∧
      epochMoved step s
        (((clusterEpochLoop step s max_epochs).2).length - 1) = 0) := by
  obtain ⟨h1, h2, h3, h4, _⟩ := clusterEpochLoop_sound step max_epochs s
  exact ⟨h1, h2, h3, h4⟩

/-- C8 witness: the loop run with the concrete step
`n ↦ (n + 1, 2 - n)` (moved counts 2, 1, 0) and `max_epochs = 5` stops
after 3 epochs, the last with moved count 0. -/
theorem C8_witness :
    ((clusterEpochLoop (fun n => (n + 1, 2 - n)) 0 5).2).length ≤ 5 ∧
    ((clusterEpochLoop (fun n => (n + 1, 2 - n)) 0 5).2).get? 1
      = some (epochMoved (fun n => (n + 1, 2 - n)) 0 1) ∧
    epochMoved (fun n => (n + 1, 2 - n)) 0 1 ≠ 0 ∧
    (0 < ((clusterEpochLoop (fun n => (n + 1, 2 - n)) 0 5).2).length ∧
      epochMoved (fun n => (n + 1, 2 - n)) 0
        (((clusterEpochLoop (fun n => (n + 1, 2 - n)) 0 5).2).length - 1)
        = 0) := by
  obtain ⟨h1, h2, h3, h4⟩ :=
    C8_cluster_loop_termination (fun n => (n + 1, 2 - n)) 0 5
  exact ⟨h1, h2 1 (by decide), h3 1 (by decide), h4 (by decide)⟩

/-- C4 counterexample: the claim lists `get_representative_samples` among
the entry points that skip already-labeled items, but its scoring pass
consults no already-labeled lookup: with the lookup marking id `"a"` as
labeled, the single item with id `"a"` is returned anyway. -/
theorem C4_counterexample :
    ((get_representative_samples (fun _ _ => 0) id id []
        [⟨"a", "t", "", "", 0⟩] 1 (-1)).1.any
      (fun it => decide (it.id = "a"))) = true := by
  decide

/-- C4 (amended): `get_random_items` and `get_model_outliers` skip items
whose id is a key of the already-labeled lookup — no such item appears in
their returned selections; `get_representative_samples` applies no such
filter (see the counterexample). -/
theorem C4_already_labeled_skipped :
    (∀ (already : String → Bool) (shuffled : List Item) (number : Nat),
      ∀ it ∈ get_random_items already shuffled number,
        already it.id = false) ∧
    (∀ (model : String → List ℚ) (already : String → Bool)
        (shU : List Item → List Item)
        (unlabeled validation : List Item) (number : Nat) (limit : Int)
        (result : List Item),
      get_model_outliers model already shU unlabeled validation number limit
        = some result →
      ∀ it ∈ result, already it.id = false) := by
  constructor
  · intro already shuffled number it h
    exact randomItemsLoop_not_labeled already number shuffled 0 it h
  · intro model already shU unl val number limit result h it hit
    simp only [get_model_outliers] at h
    split at h
    · exact absurd h (by simp)
    · rename_i r0 hr0
      split at h
      · exact absurd h (by simp)
      · rename_i outliers hsc
        rw [← Option.some.inj h] at hit
        have hmem : it ∈ sortDescByScore outliers := List.mem_of_mem_take hit
        have hout : it ∈ outliers :=
          (sortDescByScore_perm outliers).mem_iff.mp hmem
        exact (scoreOutliers_mem model already _ _ outliers hsc it hout).1

/-- C4 witness: the amended claim evaluated on concrete inputs: a
shuffled pool `["a"]` with the lookup marking only `"b"`, and an
outlier run on empty pools. -/
theorem C4_witness :
    (∀ it ∈ get_random_items (fun s => decide (s = "b"))
        [⟨"a", "t", "", "", 0⟩] 1,
      (fun s => decide (s = "b")) it.id = false) ∧
    (∀ it ∈ ([] : List Item),
      (fun s => decide (s = "b")) it.id = false) := by
  constructor
  · exact C4_already_labeled_skipped.1 (fun s => decide (s = "b"))
      [⟨"a", "t", "", "", 0⟩] 1
  · exact C4_already_labeled_skipped.2 (fun _ => [(0 : ℚ)])
      (fun s => decide (s = "b")) id [] [] 1 (-1) [] (by decide)

/-- The spec-side description of what `get_model_outliers` returns: the
top `number` of the stable descending sort of the
not-already-labeled working items, tagged and scored by the spec's
outlier formula. -/
def specOutlierSelection (model : String → List ℚ) (already : String → Bool)
    (validation : List Item) (D : Nat) (working : List Item) (number : Nat) :
    List Item :=
  (sortDescByScore ((working.filter (fun it => !(already it.id))).map
    (fun it =>
      { it with
          strategy := "logit_rank_outlier",
          score := specOutlierScore model validation D it.text }))).take number

/-- C2: for every candidate item processed by `get_model_outliers`, the
score is set to `1 -` the average over all output neurons of
`get_rank(activation, that neuron's sorted validation rankings)` (the
spec formula `specOutlierScore`), the strategy to
`"logit_rank_outlier"`, and the function returns the top `number` scored
items sorted descending by score. -/
theorem C2_model_outliers_scoring :
    ∀ (model : String → List ℚ) (already : String → Bool)
      (shU : List Item → List Item) (unlabeled validation : List Item)
      (number : Nat) (limit : Int) (D : Nat),
      (∀ s, (model s).length = D) → 0 < D → validation ≠ [] →
      get_model_outliers model already shU unlabeled validation number limit
        = some (specOutlierSelection model already validation D
            (outlierWorking shU unlabeled limit) number) ∧
      (∀ it ∈ specOutlierSelection model already validation D
          (outlierWorking shU unlabeled limit) number,
        it.strategy = "logit_rank_outlier" ∧
        it.score = specOutlierScore model validation D it.text) ∧
      List.Sorted descRel (specOutlierSelection model already validation D
        (outlierWorking shU unlabeled limit) number) := by
  intro model already shU unlabeled validation number limit D Hdim hD hne
  refine ⟨get_model_outliers_eq model already shU unlabeled validation number
    limit D Hdim hD hne, ?_, ?_⟩
  · intro it hit
    have h2 := List.mem_of_mem_take hit
    have h3 := (sortDescByScore_perm _).mem_iff.mp h2
    rw [List.mem_map] at h3
    obtain ⟨x, _, rfl⟩ := h3
    exact ⟨rfl, rfl⟩
  · exact List.Pairwise.sublist (List.take_sublist _ _)
      (sortDescByScore_sorted _)

/-- C2 witness: the refinement evaluated on a one-neuron constant model,
one unlabeled item and two validation items. -/
theorem C2_witness :
    get_model_outliers (fun _ => [(1 : ℚ)]) (fun _ => false) id
        [⟨"u", "abc", "", "", 5⟩]
        [⟨"v1", "xy", "", "", 0⟩, ⟨"v2", "z", "", "", 0⟩] 3 (-1)
      = some (specOutlierSelection (fun _ => [(1 : ℚ)]) (fun _ => false)
          [⟨"v1", "xy", "", "", 0⟩, ⟨"v2", "z", "", "", 0⟩] 1
          (outlierWorking id [⟨"u", "abc", "", "", 5⟩] (-1)) 3) :=
  (C2_model_outliers_scoring (fun _ => [(1 : ℚ)]) (fun _ => false) id
    [⟨"u", "abc", "", "", 5⟩]
    [⟨"v1", "xy", "", "", 0⟩, ⟨"v2", "z", "", "", 0⟩]
    3 (-1) 1 (fun _ => rfl) (by decide) (by decide)).1

/-- C7: score ranges are fixed per strategy: `get_rank` always lands in
`[0, 1]` on a nonempty rankings list, every item returned by
`get_model_outliers` has score `1 - average_rank ∈ [0, 1]`, and — under
the hypothesis that every profile similarity lies in `[0, 1]` — every
item returned by `get_representative_samples` has score (a difference of
two similarities) in `[-1, 1]`. -/
theorem C7_score_ranges :
    (∀ (v : ℚ) (rankings : List ℚ), rankings ≠ [] →
      ∃ q, get_rank v rankings = some q ∧ 0 ≤ q ∧ q ≤ 1) ∧
    (∀ (model : String → List ℚ) (already : String → Bool)
        (shU : List Item → List Item)
        (unlabeled validation : List Item) (number : Nat) (limit : Int)
        (result : List Item),
      get_model_outliers model already shU unlabeled validation number limit
        = some result →
      ∀ it ∈ result, 0 ≤ it.score ∧ it.score ≤ 1) ∧
    (∀ (cosSim : List String → String → ℚ),
      (∀ ms t, 0 ≤ cosSim ms t ∧ cosSim ms t ≤ 1) →
      ∀ (shT shU : List Item → List Item) (tr ul : List Item)
        (number : Nat) (limit : Int),
        ∀ it ∈ (get_representative_samples cosSim shT shU tr ul
            number limit).1,
          -1 ≤ it.score ∧ it.score ≤ 1) := by
  refine ⟨?_, ?_, ?_⟩
  · intro v r hr
    obtain ⟨q, hq⟩ := Option.isSome_iff_exists.mp (get_rank_isSome hr v)
    exact ⟨q, hq, (get_rank_bounds hq).1, (get_rank_bounds hq).2⟩
  · intro model already shU unl val number limit result h it hit
    simp only [get_model_outliers] at h
    split at h
    · exact absurd h (by simp)
    · rename_i r0 hr0
      split at h
      · exact absurd h (by simp)
      · rename_i outliers hsc
        rw [← Option.some.inj h] at hit
        have hmem : it ∈ sortDescByScore outliers := List.mem_of_mem_take hit
        have hout : it ∈ outliers :=
          (sortDescByScore_perm outliers).mem_iff.mp hmem
        have := scoreOutliers_mem model already _ _ outliers hsc it hout
        exact ⟨this.2.2.1, this.2.2.2⟩
  · intro cosSim hbnd shT shU tr ul number limit it hit
    rw [rep_result_eq] at hit
    have hmem := (sortDescByScore_perm _).mem_iff.mp (List.mem_of_mem_take hit)
    simp only [repScored, List.mem_map] at hmem
    obtain ⟨orig, _, rfl⟩ := hmem
    obtain ⟨h1, h2⟩ :=
      hbnd ((repTruncated shU ul limit).map Item.text) orig.text
    obtain ⟨h3, h4⟩ :=
      hbnd ((repTruncated shT tr limit).map Item.text) orig.text
    constructor
    · show -1 ≤ cosSim ((repTruncated shU ul limit).map Item.text) orig.text
        - cosSim ((repTruncated shT tr limit).map Item.text) orig.text
      linarith
    · show cosSim ((repTruncated shU ul limit).map Item.text) orig.text
        - cosSim ((repTruncated shT tr limit).map Item.text) orig.text ≤ 1
      linarith

/-- C7 witness: the three range statements evaluated on concrete runs:
`get_rank 2 [1,3,5]`, a constant one-neuron outlier run (score `0`), and
a constant-similarity representative run (score `0`). -/
theorem C7_witness :
    (∃ q, get_rank 2 [1, 3, 5] = some q ∧ 0 ≤ q ∧ q ≤ 1) ∧
    (0 ≤ (0 : ℚ) ∧ (0 : ℚ) ≤ 1) ∧
    (-1 ≤ (0 : ℚ) ∧ (0 : ℚ) ≤ 1) := by
  refine ⟨C7_score_ranges.1 2 [1, 3, 5] (by decide), ?_, ?_⟩
  · have h : get_model_outliers (fun _ => [(1 : ℚ)]) (fun _ => false) id
        [⟨"u", "abc", "", "", 5⟩]
        [⟨"v1", "xy", "", "", 0⟩, ⟨"v2", "z", "", "", 0⟩] 3 (-1)
        = some [⟨"u", "abc", "", "logit_rank_outlier", 0⟩] := by
      norm_num [get_model_outliers, buildValidationRankings, buildLoop,
        initRankings, writeColumn, computeRanks, scoreOutliers,
        outlierWorking, get_rank, scanIndex, sortAsc, sortDescByScore,
        List.insertionSort, List.orderedInsert, List.replicate]
    exact C7_score_ranges.2.1 (fun _ => [(1 : ℚ)]) (fun _ => false) id
      [⟨"u", "abc", "", "", 5⟩]
      [⟨"v1", "xy", "", "", 0⟩, ⟨"v2", "z", "", "", 0⟩] 3 (-1)
      [⟨"u", "abc", "", "logit_rank_outlier", 0⟩] h
      ⟨"u", "abc", "", "logit_rank_outlier", 0⟩ (by simp)
  · have hmem : (⟨"a", "t", "", "representative", 0⟩ : Item)
        ∈ (get_representative_samples (fun _ _ => (1 : ℚ)) id id []
            [⟨"a", "t", "", "", 0⟩] 1 (-1)).1 := by
      norm_num [get_representative_samples, repTruncated, repScored,
        sortDescByScore, List.insertionSort, List.orderedInsert]
    exact C7_score_ranges.2.2 (fun _ _ => (1 : ℚ))
      (fun _ _ => ⟨by norm_num, le_refl 1⟩) id id [] [⟨"a", "t", "", "", 0⟩]
      1 (-1) ⟨"a", "t", "", "representative", 0⟩ hmem

/-- C5: for every item in the (possibly truncated) target set,
`get_representative_samples` sets the score to the similarity to the
target (unlabeled) profile minus the similarity to the reference
(training) profile and the strategy to `"representative"`; the result is
the top `number` items of a stable descending sort by score (a
permutation of the scored items, sorted descending, with equal-score
items keeping their relative input order). -/
theorem C5_representative_scoring :
    ∀ (cosSim : List String → String → ℚ) (shT shU : List Item → List Item)
      (tr ul : List Item) (number : Nat) (limit : Int),
      (get_representative_samples cosSim shT shU tr ul number limit).1
        = (sortDescByScore (repScored cosSim (repTruncated shT tr limit)
            (repTruncated shU ul limit))).take number ∧
      (∀ it ∈ repScored cosSim (repTruncated shT tr limit)
          (repTruncated shU ul limit),
        it.strategy = "representative" ∧
        it.score = cosSim ((repTruncated shU ul limit).map Item.text) it.text
          - cosSim ((repTruncated shT tr limit).map Item.text) it.text) ∧
      (sortDescByScore (repScored cosSim (repTruncated shT tr limit)
          (repTruncated shU ul limit))).Perm
        (repScored cosSim (repTruncated shT tr limit)
          (repTruncated shU ul limit)) ∧
      List.Sorted descRel (sortDescByScore (repScored cosSim
        (repTruncated shT tr limit) (repTruncated shU ul limit))) ∧
      (∀ c : ℚ, (sortDescByScore (repScored cosSim
          (repTruncated shT tr limit)
          (repTruncated shU ul limit))).filter
            (fun it => decide (it.score = c))
        = (repScored cosSim (repTruncated shT tr limit)
            (repTruncated shU ul limit)).filter
              (fun it => decide (it.score = c))) := by
  intro cosSim shT shU tr ul number limit
  refine ⟨rep_result_eq cosSim shT shU tr ul number limit, ?_,
    sortDescByScore_perm _, sortDescByScore_sorted _,
    fun c => sortDescByScore_stable c _⟩
  intro it hit
  simp only [repScored, List.mem_map] at hit
  obtain ⟨orig, _, rfl⟩ := hit
  exact ⟨rfl, rfl⟩

/-- C5 witness: the scoring contract evaluated on a singleton pool with
constant similarity 1 (score `1 - 1 = 0`). -/
theorem C5_witness :
    (get_representative_samples (fun _ _ => (1 : ℚ)) id id []
        [⟨"a", "t", "", "", 0⟩] 1 (-1)).1
      = (sortDescByScore (repScored (fun _ _ => (1 : ℚ))
          (repTruncated id [] (-1))
          (repTruncated id [⟨"a", "t", "", "", 0⟩] (-1)))).take 1 ∧
    (⟨"a", "t", "", "representative", 0⟩ : Item).strategy
      = "representative" := by
  obtain ⟨h1, h2, _, _, _⟩ := C5_representative_scoring (fun _ _ => (1 : ℚ))
    id id [] [⟨"a", "t", "", "", 0⟩] 1 (-1)
  have hmem : (⟨"a", "t", "", "representative", 0⟩ : Item)
      ∈ repScored (fun _ _ => (1 : ℚ)) (repTruncated id [] (-1))
        (repTruncated id [⟨"a", "t", "", "", 0⟩] (-1)) := by
    norm_num [repScored, repTruncated]
  exact ⟨h1, (h2 _ hmem).1⟩

/-- C9: frame effect of `get_representative_samples`: for every item it
scores only the strategy (index 3) and score (index 4) fields are
written — id, text and label are unchanged — and neither caller list
gains or loses elements: the training list is left a permutation of
itself and the unlabeled list holds the same id/text/label triples, with
its length preserved. -/
theorem C9_representative_frame :
    ∀ (cosSim : List String → String → ℚ) (shT shU : List Item → List Item)
      (tr ul : List Item) (number : Nat) (limit : Int),
      (∀ l, (shT l).Perm l) → (∀ l, (shU l).Perm l) →
      ((get_representative_samples cosSim shT shU tr ul number
        limit).2.1).Perm tr ∧
      (((get_representative_samples cosSim shT shU tr ul number
        limit).2.2).map Item.base).Perm (ul.map Item.base) ∧
      ((get_representative_samples cosSim shT shU tr ul number
        limit).2.2).length = ul.length ∧
      (∀ it ∈ (get_representative_samples cosSim shT shU tr ul number
          limit).1,
        it.strategy = "representative" ∧
        ∃ orig ∈ ul, it.id = orig.id ∧ it.text = orig.text ∧
          it.label = orig.label) := by
  intro cosSim shT shU tr ul number limit hT hU
  refine ⟨?_, rep_uAfter_base_perm hU, ?_, ?_⟩
  · rw [rep_training_eq]
    by_cases h0 : 0 < limit
    · rw [if_pos h0]
      exact hT tr
    · rw [if_neg h0]
  · have hlen := (@rep_uAfter_base_perm cosSim shT shU tr ul number limit
      hU).length_eq
    simpa using hlen
  · intro it hit
    rw [rep_result_eq] at hit
    have hmem := (sortDescByScore_perm _).mem_iff.mp (List.mem_of_mem_take hit)
    simp only [repScored, List.mem_map] at hmem
    obtain ⟨orig, horig, rfl⟩ := hmem
    refine ⟨rfl, orig, ?_, rfl, rfl, rfl⟩
    rw [repTruncated] at horig
    by_cases h0 : 0 < limit
    · rw [if_pos h0] at horig
      exact (hU ul).mem_iff.mp (List.mem_of_mem_take horig)
    · rw [if_neg h0] at horig
      exact horig

/-- C9 witness: the frame conditions evaluated on a singleton pool with
identity shuffles. -/
theorem C9_witness :
    ((get_representative_samples (fun _ _ => (1 : ℚ)) id id []
        [⟨"a", "t", "", "", 0⟩] 1 (-1)).2.2).length = 1 ∧
    (⟨"a", "t", "", "representative", 0⟩ : Item).strategy
      = "representative" ∧
    ∃ orig ∈ [(⟨"a", "t", "", "", 0⟩ : Item)],
      (⟨"a", "t", "", "representative", 0⟩ : Item).id = orig.id ∧
      (⟨"a", "t", "", "representative", 0⟩ : Item).text = orig.text ∧
      (⟨"a", "t", "", "representative", 0⟩ : Item).label = orig.label := by
  obtain ⟨h1, h2, h3, h4⟩ := C9_representative_frame (fun _ _ => (1 : ℚ))
    id id [] [⟨"a", "t", "", "", 0⟩] 1 (-1)
    (fun l => List.Perm.refl l) (fun l => List.Perm.refl l)
  have hmem : (⟨"a", "t", "", "representative", 0⟩ : Item)
      ∈ (get_representative_samples (fun _ _ => (1 : ℚ)) id id []
          [⟨"a", "t", "", "", 0⟩] 1 (-1)).1 := by
    norm_num [get_representative_samples, repTruncated, repScored,
      sortDescByScore, List.insertionSort, List.orderedInsert]
  obtain ⟨hs, hex⟩ := h4 _ hmem
  exact ⟨by simpa using h3, hs, hex⟩

/-- C3: for every target set of pairwise-distinct items with at least
`number` elements, `get_adaptive_representative_samples` iterates
`number` times, each iteration selecting one item by a single-shot
representativeness pass, appending it to the result and removing it from
the target set; it returns exactly `number` items with pairwise-distinct
ids, the target set shrinks by exactly one item per iteration (its final
length is the initial length minus `number`), the selected ids plus the
remaining ids are a permutation of the initial ids, and sampling
`number = |target|` items returns all of them with no repeats. -/
theorem C3_adaptive_sampling :
    ∀ (cosSim : List String → String → ℚ)
      (shT shU : Nat → List Item → List Item)
      (tr ul : List Item) (number : Nat) (limit : Int),
      (∀ i l, (shU i l).Perm l) →
      (ul.map Item.id).Nodup → number ≤ ul.length →
      ∃ samples tF uF,
        get_adaptive_representative_samples cosSim shT shU tr ul number limit
          = some (samples, tF, uF) ∧
        samples.length = number ∧
        (samples.map Item.id).Nodup ∧
        uF.length = ul.length - number ∧
        ((samples.map Item.id) ++ (uF.map Item.id)).Perm (ul.map Item.id) ∧
        (number = ul.length →
          (samples.map Item.id).Perm (ul.map Item.id)) := by
  intro cosSim shT shU tr ul number limit hU hnd hle
  obtain ⟨samples, tF, uF, heq, hlen, huflen, hperm, hnodup⟩ :=
    adaptiveLoop_sound cosSim shT shU limit hU number 0 tr ul hnd hle
  refine ⟨samples, tF, uF, heq, hlen, hnodup, huflen, hperm, ?_⟩
  intro hful
  have huF : uF = [] := List.length_eq_zero.mp (by omega)
  rw [huF] at hperm
  simpa using hperm

/-- C3 witness: adaptive sampling of 2 items from a distinct 2-item
target set with identity shuffles. -/
theorem C3_witness :
    ∃ samples tF uF,
      get_adaptive_representative_samples (fun _ _ => (1 : ℚ))
          (fun _ l => l) (fun _ l => l) []
          [⟨"a", "t", "", "", 0⟩, ⟨"b", "s", "", "", 0⟩] 2 (-1)
        = some (samples, tF, uF) ∧
      samples.length = 2 ∧
      (samples.map Item.id).Nodup ∧
      uF.length = ([⟨"a", "t", "", "", 0⟩,
        ⟨"b", "s", "", "", 0⟩] : List Item).length - 2 ∧
      ((samples.map Item.id) ++ (uF.map Item.id)).Perm
        (([⟨"a", "t", "", "", 0⟩,
          ⟨"b", "s", "", "", 0⟩] : List Item).map Item.id) ∧
      (2 = ([⟨"a", "t", "", "", 0⟩,
          ⟨"b", "s", "", "", 0⟩] : List Item).length →
        (samples.map Item.id).Perm
          (([⟨"a", "t", "", "", 0⟩,
            ⟨"b", "s", "", "", 0⟩] : List Item).map Item.id)) :=
  C3_adaptive_sampling (fun _ _ => (1 : ℚ)) (fun _ l => l) (fun _ l => l) []
    [⟨"a", "t", "", "", 0⟩, ⟨"b", "s", "", "", 0⟩] 2 (-1)
    (fun _ l => List.Perm.refl l) (by decide) (by decide)
